import Mathlib

/-!
Verification of the interactive tournament (merge sort) program.

The program (Go) has two engines that are textually the same algorithm:
`mergeSortWithCmp`/`mergeWithCmp` in tui.go (comparator passed as a function
value) and `interactiveMergeSort`/`interactiveMerge` in the console file
(comparator inlined as `askPreference`).  We embed:

* the engine with a pure comparator (`mergeWithCmp`, `mergeSortWithCmp`),
  the direct translation of tui.go when the comparator is effect-free;
* the engine with a scripted oracle (`mergeT`, `mergeSortT` for tui.go,
  `interactiveMerge`, `interactiveMergeSort` for the console file), where the
  oracle is an answer stream `ans : Nat → Bool` consumed positionally (answer
  number `k` answers the `k`-th comparison issued, exactly as the single
  blocking oracle of the program does) and the list of comparison requests
  `(A, B)` issued is returned alongside the output, in issue order;
* the console oracle `askPreference` over an explicit list of input lines;
* the Bubbletea `model`/`Update` step machine of tui.go, with reply channels
  named by `Nat` identifiers and channel sends made explicit outputs.

The Go code is monomorphic on `string`; the engine treats items opaquely, so
it is embedded polymorphically in the item type `α`.
-/

namespace Tournament

universe u
variable {α : Type u}

/-- Embedding of `mergeWithCmp` from tui.go.  The Go loop
`for i < len(left) && j < len(right) { if cmp(left[i], right[j]) ... }`
followed by the two drain loops is written as recursion on the two lists:
each loop iteration emits one element and advances one cursor; once a side is
exhausted the other side is appended verbatim. -/
def mergeWithCmp (cmp : α → α → Bool) : List α → List α → List α
  | [], right => right
  | left, [] => left
  | a :: l, b :: r =>
    if cmp a b then a :: mergeWithCmp cmp l (b :: r)
    else b :: mergeWithCmp cmp (a :: l) r
termination_by left right => left.length + right.length

/-- Embedding of `mergeSortWithCmp` from tui.go: length ≤ 1 returns a copy of
the input (value semantics make the copy implicit), otherwise split at
`mid = len/2` into `items[:mid]` and `items[mid:]`, sort both halves
recursively and merge. -/
def mergeSortWithCmp (cmp : α → α → Bool) (items : List α) : List α :=
  if h : items.length ≤ 1 then
    items
  else
    let mid := items.length / 2
    mergeWithCmp cmp (mergeSortWithCmp cmp (items.take mid))
      (mergeSortWithCmp cmp (items.drop mid))
termination_by items.length
decreasing_by
  · simp only [List.length_take]; omega
  · simp only [List.length_drop]; omega

/-- Instrumented embedding of `mergeWithCmp` from tui.go, run against the
scripted oracle `ans` (the comparator closure built in `RunTUI`: each `cmp`
call sends one request and consumes the next boolean reply).  `k` is the index
of the next oracle answer; the result carries the merged output together with
the list of comparison requests `(A, B)` issued, in order. -/
def mergeT (ans : Nat → Bool) : List α → List α → Nat → List α × List (α × α)
  | [], right, _ => (right, [])
  | left, [], _ => (left, [])
  | a :: l, b :: r, k =>
    if ans k then
      let p := mergeT ans l (b :: r) (k + 1)
      (a :: p.1, (a, b) :: p.2)
    else
      let p := mergeT ans (a :: l) r (k + 1)
      (b :: p.1, (a, b) :: p.2)
termination_by left right _ => left.length + right.length

/-- Instrumented embedding of `mergeSortWithCmp` from tui.go against the
scripted oracle `ans`, threading the answer index through the left sort, the
right sort and the merge in program order. -/
def mergeSortT (ans : Nat → Bool) (items : List α) (k : Nat) :
    List α × List (α × α) :=
  if h : items.length ≤ 1 then
    (items, [])
  else
    let mid := items.length / 2
    let L := mergeSortT ans (items.take mid) k
    let R := mergeSortT ans (items.drop mid) (k + L.2.length)
    let M := mergeT ans L.1 R.1 (k + L.2.length + R.2.length)
    (M.1, L.2 ++ R.2 ++ M.2)
termination_by items.length
decreasing_by
  · simp only [List.length_take]; omega
  · simp only [List.length_drop]; omega

/-- Embedding of `interactiveMerge` from the console file, with the calls to
`askPreference` replaced by the scripted oracle `ans` consumed positionally
(the user's `k`-th valid answer), and the pairs asked about recorded. -/
def interactiveMerge (ans : Nat → Bool) :
    List α → List α → Nat → List α × List (α × α)
  | [], right, _ => (right, [])
  | left, [], _ => (left, [])
  | a :: l, b :: r, k =>
    if ans k then
      let p := interactiveMerge ans l (b :: r) (k + 1)
      (a :: p.1, (a, b) :: p.2)
    else
      let p := interactiveMerge ans (a :: l) r (k + 1)
      (b :: p.1, (a, b) :: p.2)
termination_by left right _ => left.length + right.length

/-- Embedding of `interactiveMergeSort` from the console file against the
scripted oracle `ans`. -/
def interactiveMergeSort (ans : Nat → Bool) (items : List α) (k : Nat) :
    List α × List (α × α) :=
  if h : items.length ≤ 1 then
    (items, [])
  else
    let mid := items.length / 2
    let L := interactiveMergeSort ans (items.take mid) k
    let R := interactiveMergeSort ans (items.drop mid) (k + L.2.length)
    let M := interactiveMerge ans L.1 R.1 (k + L.2.length + R.2.length)
    (M.1, L.2 ++ R.2 ++ M.2)
termination_by items.length
decreasing_by
  · simp only [List.length_take]; omega
  · simp only [List.length_drop]; omega

/-! ### Permutation and length lemmas for the engine -/

theorem mergeWithCmp_perm (cmp : α → α → Bool) (l r : List α) :
    List.Perm (mergeWithCmp cmp l r) (l ++ r) := by
  induction l generalizing r with
  | nil => simp [mergeWithCmp]
  | cons a l ihl =>
    induction r with
    | nil => simp [mergeWithCmp]
    | cons b r ihr =>
      rw [mergeWithCmp]
      by_cases hc : cmp a b
      · simpa [hc] using (ihl (b :: r)).cons a
      · simp only [hc, if_false]
        exact (ihr.cons b).trans List.perm_middle.symm

theorem mergeSortWithCmp_perm (cmp : α → α → Bool) (items : List α) :
    List.Perm (mergeSortWithCmp cmp items) items := by
  induction items using mergeSortWithCmp.induct cmp with
  | case1 x hx => rw [mergeSortWithCmp]; simp [hx]
  | case2 x hx mid ihl ihr =>
    rw [mergeSortWithCmp]
    simp only [hx, dite_false]
    exact (mergeWithCmp_perm cmp _ _).trans <|
      (ihl.append ihr).trans (by rw [List.take_append_drop])

theorem mergeWithCmp_mem (cmp : α → α → Bool) (l r : List α) (x : α) :
    x ∈ mergeWithCmp cmp l r ↔ x ∈ l ∨ x ∈ r := by
  rw [(mergeWithCmp_perm cmp l r).mem_iff, List.mem_append]

theorem mergeT_fst_perm (ans : Nat → Bool) (l r : List α) (k : Nat) :
    List.Perm (mergeT ans l r k).1 (l ++ r) := by
  induction l generalizing r k with
  | nil => simp [mergeT]
  | cons a l ihl =>
    induction r generalizing k with
    | nil => simp [mergeT]
    | cons b r ihr =>
      rw [mergeT]
      by_cases hk : ans k
      · simpa [hk] using (ihl (b :: r) (k + 1)).cons a
      · simp only [hk, if_false]
        exact ((ihr (k + 1)).cons b).trans List.perm_middle.symm

theorem mergeT_fst_length (ans : Nat → Bool) (l r : List α) (k : Nat) :
    (mergeT ans l r k).1.length = l.length + r.length := by
  simpa using (mergeT_fst_perm ans l r k).length_eq

theorem mergeSortT_fst_perm (ans : Nat → Bool) (items : List α) (k : Nat) :
    List.Perm (mergeSortT ans items k).1 items := by
  induction items using mergeSortWithCmp.induct (fun _ _ : α => true)
      generalizing k with
  | case1 x hx => rw [mergeSortT]; simp [hx]
  | case2 x hx mid ihl ihr =>
    rw [mergeSortT]
    simp only [hx, dite_false]
    exact (mergeT_fst_perm ans _ _ _).trans <|
      ((ihl _).append (ihr _)).trans (by rw [List.take_append_drop])

theorem mergeSortT_fst_length (ans : Nat → Bool) (items : List α) (k : Nat) :
    (mergeSortT ans items k).1.length = items.length :=
  (mergeSortT_fst_perm ans items k).length_eq

/-! ### Bounds on the number of comparison requests -/

theorem mergeT_snd_lower (ans : Nat → Bool) (l r : List α) (k : Nat) :
    min l.length r.length ≤ (mergeT ans l r k).2.length := by
  induction l generalizing r k with
  | nil => simp [mergeT]
  | cons a l ihl =>
    induction r generalizing k with
    | nil => simp [mergeT]
    | cons b r ihr =>
      rw [mergeT]
      by_cases hk : ans k
      · have := ihl (b :: r) (k + 1)
        simp only [hk, if_true, List.length_cons] at this ⊢
        omega
      · have := ihr (k + 1)
        rw [if_neg hk]
        simp only [List.length_cons] at this ⊢
        omega

theorem mergeT_snd_upper (ans : Nat → Bool) (l r : List α) (k : Nat) :
    (mergeT ans l r k).2.length ≤ l.length + r.length - 1 := by
  induction l generalizing r k with
  | nil => simp [mergeT]
  | cons a l ihl =>
    induction r generalizing k with
    | nil => simp [mergeT]
    | cons b r ihr =>
      rw [mergeT]
      by_cases hk : ans k
      · have := ihl (b :: r) (k + 1)
        simp only [hk, if_true, List.length_cons] at this ⊢
        omega
      · have := ihr (k + 1)
        rw [if_neg hk]
        simp only [List.length_cons] at this ⊢
        omega

theorem mergeSortT_snd_lower (ans : Nat → Bool) (items : List α) (k : Nat) :
    items.length - 1 ≤ (mergeSortT ans items k).2.length := by
  induction items using mergeSortWithCmp.induct (fun _ _ : α => true)
      generalizing k with
  | case1 x hx => rw [mergeSortT]; simp only [hx, dite_true]; omega
  | case2 x hx mid ihl ihr =>
    rw [mergeSortT]
    simp only [hx, dite_false]
    have h1 := ihl k
    have h2 := ihr (k + (mergeSortT ans (x.take (x.length / 2)) k).2.length)
    have h3 := mergeT_snd_lower ans
      (mergeSortT ans (x.take (x.length / 2)) k).1
      (mergeSortT ans (x.drop (x.length / 2))
        (k + (mergeSortT ans (x.take (x.length / 2)) k).2.length)).1
      (k + (mergeSortT ans (x.take (x.length / 2)) k).2.length +
        (mergeSortT ans (x.drop (x.length / 2))
          (k + (mergeSortT ans (x.take (x.length / 2)) k).2.length)).2.length)
    have hmid : mid = x.length / 2 := rfl
    rw [hmid] at h1 h2
    simp only [mergeSortT_fst_length, List.length_take, List.length_drop,
      List.length_append] at h1 h2 h3 ⊢
    omega

theorem mergeSortT_snd_upper (ans : Nat → Bool) (items : List α) (k : Nat) :
    (mergeSortT ans items k).2.length ≤
      items.length * Nat.clog 2 items.length := by
  induction items using mergeSortWithCmp.induct (fun _ _ : α => true)
      generalizing k with
  | case1 x hx => rw [mergeSortT]; simp [hx]
  | case2 x hx mid ihl ihr =>
    rw [mergeSortT]
    simp only [hx, dite_false]
    have hx2 : 2 ≤ x.length := by omega
    have hceq : Nat.clog 2 x.length =
        Nat.clog 2 (x.length - x.length / 2) + 1 := by
      rw [Nat.clog_of_two_le (by norm_num) hx2]
      congr 2
      omega
    obtain ⟨c, hc⟩ : ∃ c, Nat.clog 2 x.length = c + 1 :=
      ⟨Nat.clog 2 (x.length - x.length / 2), hceq⟩
    have hdropc : Nat.clog 2 (x.length - x.length / 2) = c := by omega
    have htakec : Nat.clog 2 (x.length / 2) ≤ c := by
      rw [← hdropc]
      exact Nat.clog_mono_right 2 (by omega)
    have h1 : (mergeSortT ans (x.take (x.length / 2)) k).2.length ≤
        (x.length / 2) * c := by
      refine (ihl k).trans ?_
      simp only [List.length_take]
      rw [min_eq_left (by omega)]
      exact Nat.mul_le_mul_left _ htakec
    have h2 : (mergeSortT ans (x.drop (x.length / 2))
        (k + (mergeSortT ans (x.take (x.length / 2)) k).2.length)).2.length ≤
        (x.length - x.length / 2) * c := by
      refine (ihr _).trans ?_
      simp only [List.length_drop]
      rw [hdropc]
    have h3 := mergeT_snd_upper ans
      (mergeSortT ans (x.take (x.length / 2)) k).1
      (mergeSortT ans (x.drop (x.length / 2))
        (k + (mergeSortT ans (x.take (x.length / 2)) k).2.length)).1
      (k + (mergeSortT ans (x.take (x.length / 2)) k).2.length +
        (mergeSortT ans (x.drop (x.length / 2))
          (k + (mergeSortT ans (x.take (x.length / 2)) k).2.length)).2.length)
    simp only [mergeSortT_fst_length, List.length_take, List.length_drop]
      at h3
    have hmul : (x.length / 2) * c + (x.length - x.length / 2) * c =
        x.length * c := by
      rw [← Nat.add_mul]
      congr 1
      omega
    rw [hc, Nat.mul_succ]
    simp only [List.length_append]
    omega

/-! ### The console engine and the TUI engine are the same function -/

theorem interactiveMerge_eq_mergeT (ans : Nat → Bool) (l r : List α) (k : Nat) :
    interactiveMerge ans l r k = mergeT ans l r k := by
  induction l generalizing r k with
  | nil => simp [interactiveMerge, mergeT]
  | cons a l ihl =>
    induction r generalizing k with
    | nil => simp [interactiveMerge, mergeT]
    | cons b r ihr =>
      rw [interactiveMerge, mergeT]
      by_cases hk : ans k
      · simp [hk, ihl]
      · simp [hk, ihr]

theorem interactiveMergeSort_eq_mergeSortT (ans : Nat → Bool) (items : List α)
    (k : Nat) : interactiveMergeSort ans items k = mergeSortT ans items k := by
  induction items using mergeSortWithCmp.induct (fun _ _ : α => true)
      generalizing k with
  | case1 x hx => rw [interactiveMergeSort, mergeSortT]; simp [hx]
  | case2 x hx mid ihl ihr =>
    rw [interactiveMergeSort, mergeSortT]
    simp only [hx, dite_false]
    simp only [ihl, ihr, interactiveMerge_eq_mergeT]

/-! ### Sortedness under a strict total order

`cmp a b = true` is read "a is strictly preferred to b".  The output order of
the engine is `fun a b => cmp b a = false`: a later element is never strictly
preferred to an earlier one (descending, most-preferred first). -/

theorem cmp_irrefl (cmp : α → α → Bool)
    (hasym : ∀ a b, cmp a b = true → cmp b a = false) (a : α) :
    cmp a a = false := by
  cases h : cmp a a with
  | false => rfl
  | true => have := hasym a a h; rw [h] at this; exact this

theorem cmpFalse_trans (cmp : α → α → Bool)
    (htrans : ∀ a b c, cmp a b = true → cmp b c = true → cmp a c = true)
    (htotal : ∀ a b : α, a ≠ b → cmp a b = true ∨ cmp b a = true)
    {a b c : α} (h1 : cmp b a = false) (h2 : cmp c b = false) :
    cmp c a = false := by
  cases hca : cmp c a with
  | false => rfl
  | true =>
    by_cases hcb : c = b
    · subst hcb; rw [hca] at h1; exact h1
    · rcases htotal c b hcb with h3 | h4
      · rw [h3] at h2; exact h2
      · have := htrans b c a h4 hca
        rw [this] at h1; exact h1

theorem mergeWithCmp_sorted (cmp : α → α → Bool)
    (hasym : ∀ a b, cmp a b = true → cmp b a = false)
    (htrans : ∀ a b c, cmp a b = true → cmp b c = true → cmp a c = true)
    (htotal : ∀ a b : α, a ≠ b → cmp a b = true ∨ cmp b a = true)
    (l r : List α) :
    List.Pairwise (fun a b => cmp b a = false) l →
    List.Pairwise (fun a b => cmp b a = false) r →
    List.Pairwise (fun a b => cmp b a = false) (mergeWithCmp cmp l r) := by
  induction l generalizing r with
  | nil => intro _ hr; simpa [mergeWithCmp] using hr
  | cons a l ihl =>
    intro hl
    induction r with
    | nil => intro _; simpa [mergeWithCmp] using hl
    | cons b r ihr =>
      intro hr
      rw [mergeWithCmp]
      rw [List.pairwise_cons] at hl hr
      by_cases hc : cmp a b = true
      · rw [if_pos hc, List.pairwise_cons]
        refine ⟨?_, ihl (b :: r) hl.2 (List.pairwise_cons.mpr hr)⟩
        intro x hx
        rw [mergeWithCmp_mem] at hx
        rcases hx with hx | hx
        · exact hl.1 x hx
        · rcases List.mem_cons.mp hx with rfl | hx
          · exact hasym a x hc
          · exact cmpFalse_trans cmp htrans htotal (hasym a b hc)
              (hr.1 x hx)
      · have hc' : cmp a b = false := by
          cases h : cmp a b with
          | false => rfl
          | true => exact absurd h hc
        rw [if_neg hc, List.pairwise_cons]
        refine ⟨?_, ihr hr.2⟩
        intro x hx
        rw [mergeWithCmp_mem] at hx
        rcases hx with hx | hx
        · rcases List.mem_cons.mp hx with rfl | hx
          · exact hc'
          · exact cmpFalse_trans cmp htrans htotal hc' (hl.1 x hx)
        · exact hr.1 x hx

theorem mergeSortWithCmp_sorted (cmp : α → α → Bool)
    (hasym : ∀ a b, cmp a b = true → cmp b a = false)
    (htrans : ∀ a b c, cmp a b = true → cmp b c = true → cmp a c = true)
    (htotal : ∀ a b : α, a ≠ b → cmp a b = true ∨ cmp b a = true)
    (items : List α) :
    List.Pairwise (fun a b => cmp b a = false) (mergeSortWithCmp cmp items) := by
  induction items using mergeSortWithCmp.induct cmp with
  | case1 x hx =>
    rw [mergeSortWithCmp, dif_pos hx]
    rcases x with _ | ⟨a, _ | ⟨b, t⟩⟩
    · exact List.Pairwise.nil
    · simp
    · simp at hx
  | case2 x hx mid ihl ihr =>
    rw [mergeSortWithCmp]
    simp only [hx, dite_false]
    exact mergeWithCmp_sorted cmp hasym htrans htotal _ _ ihl ihr

theorem mergeSortWithCmp_idem (cmp : α → α → Bool)
    (hasym : ∀ a b, cmp a b = true → cmp b a = false)
    (htrans : ∀ a b c, cmp a b = true → cmp b c = true → cmp a c = true)
    (htotal : ∀ a b : α, a ≠ b → cmp a b = true ∨ cmp b a = true)
    (items : List α) :
    mergeSortWithCmp cmp (mergeSortWithCmp cmp items) =
      mergeSortWithCmp cmp items := by
  haveI : IsAntisymm α (fun a b => cmp b a = false) := by
    constructor
    intro a b h1 h2
    by_contra hne
    rcases htotal a b hne with h | h
    · rw [h] at h2; simp at h2
    · rw [h] at h1; simp at h1
  exact List.eq_of_perm_of_sorted
    (mergeSortWithCmp_perm cmp (mergeSortWithCmp cmp items))
    (mergeSortWithCmp_sorted cmp hasym htrans htotal _)
    (mergeSortWithCmp_sorted cmp hasym htrans htotal _)

theorem mergeSortWithCmp_stable [DecidableEq α] (cmp : α → α → Bool)
    (hasym : ∀ a b, cmp a b = true → cmp b a = false)
    (htotal : ∀ a b : α, a ≠ b → cmp a b = true ∨ cmp b a = true)
    (items : List α) (a : α) :
    (mergeSortWithCmp cmp items).filter (fun x => !cmp x a && !cmp a x) =
      items.filter (fun x => !cmp x a && !cmp a x) := by
  have hpt : ∀ x : α, (!cmp x a && !cmp a x) = decide (x = a) := by
    intro x
    by_cases hxa : x = a
    · subst hxa
      simp [cmp_irrefl cmp hasym x]
    · rcases htotal x a hxa with h | h <;> simp [h, hxa]
  rw [List.filter_congr (fun x _ => hpt x), List.filter_congr (fun x _ => hpt x),
    List.filter_eq, List.filter_eq,
    (mergeSortWithCmp_perm cmp items).count_eq]

/-! ### The merge keeps each half in order (sublist lemmas) -/

theorem left_sublist_mergeWithCmp (cmp : α → α → Bool) (l r : List α) :
    l.Sublist (mergeWithCmp cmp l r) := by
  induction l generalizing r with
  | nil => exact List.nil_sublist _
  | cons a l ihl =>
    induction r with
    | nil =>
      have hmm : mergeWithCmp cmp (a :: l) [] = a :: l := by
        simp [mergeWithCmp]
      rw [hmm]
    | cons b r ihr =>
      rw [mergeWithCmp]
      by_cases hc : cmp a b = true
      · rw [if_pos hc]; exact (ihl (b :: r)).cons₂ a
      · rw [if_neg hc]; exact ihr.cons b

theorem right_sublist_mergeWithCmp (cmp : α → α → Bool) (l r : List α) :
    r.Sublist (mergeWithCmp cmp l r) := by
  induction l generalizing r with
  | nil => rw [mergeWithCmp]
  | cons a l ihl =>
    induction r with
    | nil => exact List.nil_sublist _
    | cons b r ihr =>
      rw [mergeWithCmp]
      by_cases hc : cmp a b = true
      · rw [if_pos hc]; exact (ihl (b :: r)).cons a
      · rw [if_neg hc]; exact ihr.cons₂ b

theorem left_sublist_interactiveMerge (ans : Nat → Bool) (l r : List α)
    (k : Nat) : l.Sublist (interactiveMerge ans l r k).1 := by
  induction l generalizing r k with
  | nil => exact List.nil_sublist _
  | cons a l ihl =>
    induction r generalizing k with
    | nil =>
      have hmm : interactiveMerge ans (a :: l) [] k = (a :: l, []) := by
        simp [interactiveMerge]
      rw [hmm]
    | cons b r ihr =>
      rw [interactiveMerge]
      by_cases hk : ans k = true
      · rw [if_pos hk]; exact (ihl (b :: r) (k + 1)).cons₂ a
      · rw [if_neg hk]; exact (ihr (k + 1)).cons b

theorem right_sublist_interactiveMerge (ans : Nat → Bool) (l r : List α)
    (k : Nat) : r.Sublist (interactiveMerge ans l r k).1 := by
  induction l generalizing r k with
  | nil => rw [interactiveMerge]
  | cons a l ihl =>
    induction r generalizing k with
    | nil => exact List.nil_sublist _
    | cons b r ihr =>
      rw [interactiveMerge]
      by_cases hk : ans k = true
      · rw [if_pos hk]; exact (ihl (b :: r) (k + 1)).cons a
      · rw [if_neg hk]; exact (ihr (k + 1)).cons₂ b

/-! ### The console oracle `askPreference`

The oracle reads lines from the shared `bufio.Reader`.  We model the input
stream as the list of lines still unread.  `strings.TrimSpace` and
`strings.ToLower` are modeled on the character list of the line (all tokens
the oracle recognizes are ASCII, so ASCII lowercasing is what the match sees);
`Char.isWhitespace` plays the whitespace class used for trimming. -/

/-- Lowercasing of one character (`strings.ToLower`, ASCII range). -/
def lowerChar (c : Char) : Char :=
  if 'A' ≤ c ∧ c ≤ 'Z' then Char.ofNat (c.toNat + 32) else c

/-- Computes `strings.ToLower(strings.TrimSpace(line))`: trim whitespace
from both ends, then lowercase. -/
def normalizeLine (s : String) : String :=
  ⟨((s.data.dropWhile Char.isWhitespace).reverse.dropWhile
      Char.isWhitespace).reverse.map lowerChar⟩

/-- Outcome of one `askPreference` call.
* `answer v rest invalid`: the call returned `v` (`true` = prefer the first
  item), leaving `rest` of the input stream unread, after printing the
  invalid-input notice `invalid` times (one re-prompt per notice);
* `quitProgram`: the user entered a quit token and the process terminated
  immediately via `os.Exit(0)` — no ranking is produced;
* `readError`: the input stream was exhausted, `reader.ReadString` failed and
  the process terminated via `os.Exit(1)`. -/
inductive AskResult
  | answer (prefersA : Bool) (rest : List String) (invalid : Nat)
  | quitProgram
  | readError
deriving DecidableEq

/-- Embedding of `askPreference` from the console file.  The unbounded
`for { ... }` retry loop is recursion on the unread lines; the prompt and
card printing have no effect on the result and are dropped. -/
def askPreference (a b : String) : List String → AskResult
  | [] => .readError
  | line :: rest =>
    let resp := normalizeLine line
    if resp = "1" ∨ resp = "a" then
      .answer true rest 0
    else if resp = "2" ∨ resp = "b" then
      .answer false rest 0
    else if resp = "q" ∨ resp = "quit" ∨ resp = "exit" then
      .quitProgram
    else
      match askPreference a b rest with
      | .answer v rest' n => .answer v rest' (n + 1)
      | .quitProgram => .quitProgram
      | .readError => .readError

/-- How the spec classifies a single input line. -/
inductive LineClass
  | preferA
  | preferB
  | quitCmd
  | invalid
deriving DecidableEq

/-- Written from the spec's words (§4.2): trim whitespace, match
case-insensitively; "1"/"a" prefers A, "2"/"b" prefers B, "q"/"quit"/"exit"
quits, anything else is invalid. -/
def specLineClass (line : String) : LineClass :=
  let r := normalizeLine line
  if r = "1" ∨ r = "a" then .preferA
  else if r = "2" ∨ r = "b" then .preferB
  else if r = "q" ∨ r = "quit" ∨ r = "exit" then .quitCmd
  else .invalid

theorem askPreference_cons (a b line : String) (rest : List String) :
    askPreference a b (line :: rest) =
      match specLineClass line with
      | .preferA => .answer true rest 0
      | .preferB => .answer false rest 0
      | .quitCmd => .quitProgram
      | .invalid =>
        match askPreference a b rest with
        | .answer v rest' n => .answer v rest' (n + 1)
        | .quitProgram => .quitProgram
        | .readError => .readError := by
  rw [askPreference, specLineClass]
  split_ifs <;> rfl

theorem askPreference_invalid_head (a b line : String) (rest : List String)
    (h : specLineClass line = .invalid) :
    askPreference a b (line :: rest) =
      match askPreference a b rest with
      | .answer v rest' n => .answer v rest' (n + 1)
      | .quitProgram => .quitProgram
      | .readError => .readError := by
  rw [askPreference_cons, h]

/-- The oracle acts on the first recognized line: it skips any prefix of
invalid lines (one notice and one re-prompt each), then answers or quits
according to that line's class, leaving the rest of the stream unread. -/
theorem askPreference_firstRecognized (a b : String) (pre : List String)
    (line : String) (rest : List String)
    (hpre : ∀ l ∈ pre, specLineClass l = .invalid) :
    askPreference a b (pre ++ line :: rest) =
      match specLineClass line with
      | .preferA => .answer true rest pre.length
      | .preferB => .answer false rest pre.length
      | .quitCmd => .quitProgram
      | .invalid => askPreference a b (pre ++ line :: rest) := by
  induction pre with
  | nil =>
    cases hcl : specLineClass line with
    | preferA => rw [List.nil_append, askPreference_cons, hcl]; simp
    | preferB => rw [List.nil_append, askPreference_cons, hcl]; simp
    | quitCmd => rw [List.nil_append, askPreference_cons, hcl]
    | invalid => rfl
  | cons p pre ih =>
    have hp : specLineClass p = .invalid := hpre p (by simp)
    have hrec := ih (fun l hl => hpre l (List.mem_cons_of_mem _ hl))
    cases hcl : specLineClass line with
    | preferA =>
      rw [List.cons_append, askPreference_invalid_head a b p _ hp, hrec, hcl]
      simp
    | preferB =>
      rw [List.cons_append, askPreference_invalid_head a b p _ hp, hrec, hcl]
      simp
    | quitCmd =>
      rw [List.cons_append, askPreference_invalid_head a b p _ hp, hrec, hcl]
    | invalid => rfl

/-- If every line of the stream is invalid the loop exhausts the stream and
the read fails. -/
theorem askPreference_allInvalid (a b : String) (lines : List String)
    (h : ∀ l ∈ lines, specLineClass l = .invalid) :
    askPreference a b lines = .readError := by
  induction lines with
  | nil => rfl
  | cons p rest ih =>
    rw [askPreference_invalid_head a b p rest (h p (by simp)),
      ih (fun l hl => h l (by simp [hl]))]

/-! ### The Bubbletea model of tui.go

The `model` struct and its `Update` method.  A `compareRequest`'s reply
channel `Resp chan bool` is modeled by a `Nat` identifier (fresh channels get
distinct identifiers); sending a boolean on a channel inside `Update` becomes
an explicit output `(identifier, boolean)`.  The receive-only `compCh` field
only feeds `Init`'s no-op command and plays no role in `Update`, so it is
dropped.  `tea.Cmd` results are `TuiCmd.none` (Go `nil`) or `TuiCmd.quit`
(Go `tea.Quit`). -/

structure TuiModel where
  a : String
  b : String
  req : Option Nat
  status : String
deriving DecidableEq

/-- Embedding of `initialModel` (Go zero values for `a`, `b`, `req`). -/
def initialModel : TuiModel :=
  { a := "", b := "", req := none, status := "Waiting for first comparison..." }

/-- The messages `Update` can receive: `cmpRequestMsg` (with the request's
reply-channel identifier), `tea.KeyMsg` (by its `String()` value), `quitMsg`,
`tea.WindowSizeMsg`, and the unused `tickMsg`. -/
inductive TuiMsg
  | cmpRequest (A B : String) (resp : Nat)
  | key (s : String)
  | quitMsg
  | windowSize
  | tick
deriving DecidableEq

inductive TuiCmd
  | none
  | quit
deriving DecidableEq

/-- Embedding of `model.Update`: returns the new model, the list of channel
sends performed (identifier, boolean), and the returned command. -/
def Update (m : TuiModel) (msg : TuiMsg) :
    TuiModel × List (Nat × Bool) × TuiCmd :=
  match msg with
  | .cmpRequest A B resp =>
    ({ a := A, b := B, req := some resp,
       status := "Use ← / → (or h / l) to choose. Enter q to quit." },
      [], .none)
  | .key s =>
    if s = "left" ∨ s = "h" then
      match m.req with
      | some ch => ({ m with req := none, status := "Sent choice: left" },
          [(ch, true)], .none)
      | none => (m, [], .none)
    else if s = "right" ∨ s = "l" then
      match m.req with
      | some ch => ({ m with req := none, status := "Sent choice: right" },
          [(ch, false)], .none)
      | none => (m, [], .none)
    else if s = "q" ∨ s = "ctrl+c" then
      (m, [], .quit)
    else
      (m, [], .none)
  | .quitMsg => (m, [], .quit)
  | .windowSize => (m, [], .none)
  | .tick => (m, [], .none)

/-- Folding `Update` over a message sequence, accumulating all channel sends
in order. -/
def runTui (m : TuiModel) : List TuiMsg → TuiModel × List (Nat × Bool)
  | [] => (m, [])
  | msg :: rest =>
    let step := Update m msg
    let next := runTui step.1 rest
    (next.1, step.2.1 ++ next.2)

/-- The reply-channel identifiers carried by the `cmpRequestMsg`s of a message
sequence, in order. -/
def msgRespIds : List TuiMsg → List Nat
  | [] => []
  | .cmpRequest _ _ resp :: rest => resp :: msgRespIds rest
  | .key _ :: rest => msgRespIds rest
  | .quitMsg :: rest => msgRespIds rest
  | .windowSize :: rest => msgRespIds rest
  | .tick :: rest => msgRespIds rest

/-- After an `Update` step the pending slot is cleared, unchanged, or set to
the identifier of the newly arrived request. -/
theorem Update_req_cases (m : TuiModel) (msg : TuiMsg) :
    (Update m msg).1.req = none ∨ (Update m msg).1.req = m.req ∨
      ∃ A B resp, msg = .cmpRequest A B resp ∧
        (Update m msg).1.req = some resp := by
  cases msg with
  | cmpRequest A B resp => exact Or.inr (Or.inr ⟨A, B, resp, rfl, rfl⟩)
  | key s =>
    rw [Update]
    split_ifs <;> (cases hr : m.req <;> simp [hr])
  | quitMsg => exact Or.inr (Or.inl rfl)
  | windowSize => exact Or.inr (Or.inl rfl)
  | tick => exact Or.inr (Or.inl rfl)

/-- Single `Update` step: a send happens only on the currently pending
request's channel, and the pending slot is cleared by the send. -/
theorem Update_send_pending (m : TuiModel) (msg : TuiMsg) (ch : Nat)
    (v : Bool) (hmem : (ch, v) ∈ (Update m msg).2.1) :
    m.req = some ch ∧ (Update m msg).1.req = none := by
  cases msg with
  | cmpRequest A B resp => simp [Update] at hmem
  | key s =>
    by_cases h1 : s = "left" ∨ s = "h"
    · cases hr : m.req with
      | none =>
        have hu : Update m (.key s) = (m, [], .none) := by
          rw [Update, if_pos h1, hr]
        rw [hu] at hmem; simp at hmem
      | some c =>
        have hu : Update m (.key s) =
            ({ m with req := none, status := "Sent choice: left" },
              [(c, true)], .none) := by
          rw [Update, if_pos h1, hr]
        rw [hu] at hmem ⊢
        simp only [List.mem_singleton, Prod.mk.injEq] at hmem
        exact ⟨by rw [hmem.1], rfl⟩
    · by_cases h2 : s = "right" ∨ s = "l"
      · cases hr : m.req with
        | none =>
          have hu : Update m (.key s) = (m, [], .none) := by
            rw [Update, if_neg h1, if_pos h2, hr]
          rw [hu] at hmem; simp at hmem
        | some c =>
          have hu : Update m (.key s) =
              ({ m with req := none, status := "Sent choice: right" },
                [(c, false)], .none) := by
            rw [Update, if_neg h1, if_pos h2, hr]
          rw [hu] at hmem ⊢
          simp only [List.mem_singleton, Prod.mk.injEq] at hmem
          exact ⟨by rw [hmem.1], rfl⟩
      · by_cases h3 : s = "q" ∨ s = "ctrl+c"
        · have hu : Update m (.key s) = (m, [], .quit) := by
            rw [Update, if_neg h1, if_neg h2, if_pos h3]
          rw [hu] at hmem; simp at hmem
        · have hu : Update m (.key s) = (m, [], .none) := by
            rw [Update, if_neg h1, if_neg h2, if_neg h3]
          rw [hu] at hmem; simp at hmem
  | quitMsg => simp [Update] at hmem
  | windowSize => simp [Update] at hmem
  | tick => simp [Update] at hmem

/-- Each `Update` step performs at most one channel send. -/
theorem Update_sends_le_one (m : TuiModel) (msg : TuiMsg) :
    (Update m msg).2.1.length ≤ 1 := by
  cases msg with
  | cmpRequest A B resp => simp [Update]
  | key s =>
    rw [Update]
    split_ifs <;> first
      | simp
      | (cases m.req <;> simp)
  | quitMsg => simp [Update]
  | windowSize => simp [Update]
  | tick => simp [Update]

/-- If channel `ch` is not pending and never arrives in a later request, it is
never sent on. -/
theorem runTui_no_send (m : TuiModel) (msgs : List TuiMsg) (ch : Nat)
    (hm : m.req ≠ some ch) (hids : ch ∉ msgRespIds msgs) :
    (runTui m msgs).2.filter (fun s => decide (s.1 = ch)) = [] := by
  induction msgs generalizing m with
  | nil => rfl
  | cons msg rest ih =>
    rw [runTui]
    simp only [List.filter_append]
    have hstep : ∀ p ∈ (Update m msg).2.1, ¬ decide (p.1 = ch) = true := by
      intro p hp
      obtain ⟨hpend, _⟩ := Update_send_pending m msg p.1 p.2 (by simpa using hp)
      simp only [decide_eq_true_eq]
      intro hcontra
      rw [hcontra] at hpend
      exact hm hpend
    rw [List.filter_eq_nil_iff.mpr hstep, List.nil_append]
    apply ih
    · rcases Update_req_cases m msg with h | h | ⟨A, B, resp, rfl, h⟩
      · rw [h]; simp
      · rw [h]; exact hm
      · rw [h]
        intro hcontra
        simp only [Option.some.injEq] at hcontra
        exact hids (by simp [msgRespIds, hcontra])
    · cases msg <;> simp_all [msgRespIds]

/-- Along any run from a state whose pending channel (if any) does not recur
among the incoming request identifiers, and whose incoming identifiers are
pairwise distinct, every channel is sent on at most once. -/
theorem runTui_send_once (m : TuiModel) (msgs : List TuiMsg) (ch : Nat)
    (hnd : (msgRespIds msgs).Nodup)
    (hm : m.req = some ch → ch ∉ msgRespIds msgs) :
    ((runTui m msgs).2.filter (fun s => decide (s.1 = ch))).length ≤ 1 := by
  induction msgs generalizing m with
  | nil => simp [runTui]
  | cons msg rest ih =>
    rw [runTui]
    simp only [List.filter_append, List.length_append]
    cases msg with
    | cmpRequest A B resp =>
      have h0 : (Update m (.cmpRequest A B resp)).2.1 = [] := by simp [Update]
      rw [h0]
      simp only [List.filter_nil, List.length_nil, Nat.zero_add]
      rw [msgRespIds] at hnd hm
      apply ih
      · exact hnd.of_cons
      · intro hpend
        simp only [Update] at hpend
        simp at hpend
        rw [hpend] at hnd
        exact (List.nodup_cons.mp hnd).1
    | key s =>
      by_cases h1 : s = "left" ∨ s = "h"
      · cases hr : m.req with
        | none =>
          have hu : Update m (.key s) = (m, [], .none) := by
            rw [Update, if_pos h1, hr]
          rw [hu]
          simp only [List.filter_nil, List.length_nil, Nat.zero_add]
          exact ih m hnd (fun hp => hm hp)
        | some c =>
          have hu : Update m (.key s) =
              ({ m with req := none, status := "Sent choice: left" },
                [(c, true)], .none) := by
            rw [Update, if_pos h1, hr]
          rw [hu]
          by_cases hc : c = ch
          · subst hc
            have hrest : c ∉ msgRespIds rest := hm hr
            rw [runTui_no_send _ rest c (by simp) hrest]
            simp
          · have h0 : ([(c, true)].filter
                (fun s => decide (s.1 = ch))) = [] := by simp [hc]
            rw [h0]
            simp only [List.length_nil, Nat.zero_add, List.length_nil]
            exact ih _ hnd (by simp)
      · by_cases h2 : s = "right" ∨ s = "l"
        · cases hr : m.req with
          | none =>
            have hu : Update m (.key s) = (m, [], .none) := by
              rw [Update, if_neg h1, if_pos h2, hr]
            rw [hu]
            simp only [List.filter_nil, List.length_nil, Nat.zero_add]
            exact ih m hnd (fun hp => hm hp)
          | some c =>
            have hu : Update m (.key s) =
                ({ m with req := none, status := "Sent choice: right" },
                  [(c, false)], .none) := by
              rw [Update, if_neg h1, if_pos h2, hr]
            rw [hu]
            by_cases hc : c = ch
            · subst hc
              have hrest : c ∉ msgRespIds rest := hm hr
              rw [runTui_no_send _ rest c (by simp) hrest]
              simp
            · have h0 : ([(c, false)].filter
                  (fun s => decide (s.1 = ch))) = [] := by simp [hc]
              rw [h0]
              simp only [List.length_nil, Nat.zero_add]
              exact ih _ hnd (by simp)
        · by_cases h3 : s = "q" ∨ s = "ctrl+c"
          · have hu : Update m (.key s) = (m, [], .quit) := by
              rw [Update, if_neg h1, if_neg h2, if_pos h3]
            rw [hu]
            simp only [List.filter_nil, List.length_nil, Nat.zero_add]
            exact ih m hnd (fun hp => hm hp)
          · have hu : Update m (.key s) = (m, [], .none) := by
              rw [Update, if_neg h1, if_neg h2, if_neg h3]
            rw [hu]
            simp only [List.filter_nil, List.length_nil, Nat.zero_add]
            exact ih m hnd (fun hp => hm hp)
    | quitMsg =>
      rw [show (Update m .quitMsg).2.1 = [] from rfl]
      simp only [List.filter_nil, List.length_nil, Nat.zero_add]
      exact ih (Update m .quitMsg).1 (by simpa [msgRespIds] using hnd)
        (by simpa [Update, msgRespIds] using hm)
    | windowSize =>
      rw [show (Update m .windowSize).2.1 = [] from rfl]
      simp only [List.filter_nil, List.length_nil, Nat.zero_add]
      exact ih (Update m .windowSize).1 (by simpa [msgRespIds] using hnd)
        (by simpa [Update, msgRespIds] using hm)
    | tick =>
      rw [show (Update m .tick).2.1 = [] from rfl]
      simp only [List.filter_nil, List.length_nil, Nat.zero_add]
      exact ih (Update m .tick).1 (by simpa [msgRespIds] using hnd)
        (by simpa [Update, msgRespIds] using hm)

/-- Unfolding of `mergeSortWithCmp` in the recursive case. -/
theorem mergeSortWithCmp_unfold (cmp : α → α → Bool) (items : List α)
    (h2 : 2 ≤ items.length) :
    mergeSortWithCmp cmp items =
      mergeWithCmp cmp
        (mergeSortWithCmp cmp (items.take (items.length / 2)))
        (mergeSortWithCmp cmp (items.drop (items.length / 2))) := by
  conv_lhs => rw [mergeSortWithCmp]
  rw [dif_neg (by omega : ¬ items.length ≤ 1)]

/-! ## The claims -/

/-- C1: for every input sequence of items and every comparator (pure for the
TUI engine, a scripted answer stream for the console engine), the output of
the merge sort engine — `mergeSortWithCmp`, and likewise
`interactiveMergeSort` — is a permutation of the input: same length, same
multiset, no item duplicated, dropped or invented. -/
theorem claim1_output_permutation :
    ∀ (α : Type u) (cmp : α → α → Bool) (items : List α),
      List.Perm (mergeSortWithCmp cmp items) items ∧
      (mergeSortWithCmp cmp items).length = items.length ∧
      ∀ (ans : Nat → Bool) (k : Nat),
        List.Perm (interactiveMergeSort ans items k).1 items ∧
        (interactiveMergeSort ans items k).1.length = items.length := by
  intro α cmp items
  refine ⟨mergeSortWithCmp_perm cmp items,
    (mergeSortWithCmp_perm cmp items).length_eq, ?_⟩
  intro ans k
  rw [interactiveMergeSort_eq_mergeSortT]
  exact ⟨mergeSortT_fst_perm ans items k, mergeSortT_fst_length ans items k⟩

/-- C2: for every comparator implementing a strict total order
(`cmp a b = true` iff `a` strictly preferred to `b`), the ranking is
stable-sorted descending by that order: no later output element is strictly
preferred to an earlier one, and the items the order does not distinguish
from a given `a` occupy in the output exactly the positions-in-order they had
in the input (expressed as equality of the filtered sublists). -/
theorem claim2_sorted_descending_stable {α : Type u} [DecidableEq α]
    (cmp : α → α → Bool)
    (hasym : ∀ a b, cmp a b = true → cmp b a = false)
    (htrans : ∀ a b c, cmp a b = true → cmp b c = true → cmp a c = true)
    (htotal : ∀ a b : α, a ≠ b → cmp a b = true ∨ cmp b a = true)
    (items : List α) :
    List.Pairwise (fun a b => cmp b a = false) (mergeSortWithCmp cmp items) ∧
      ∀ a : α, (mergeSortWithCmp cmp items).filter
          (fun x => !cmp x a && !cmp a x) =
        items.filter (fun x => !cmp x a && !cmp a x) :=
  ⟨mergeSortWithCmp_sorted cmp hasym htrans htotal items,
   fun a => mergeSortWithCmp_stable cmp hasym htotal items a⟩

theorem claim2_witness :
    List.Pairwise (fun a b : Nat => decide (b < a) = false)
        (mergeSortWithCmp (fun x y : Nat => decide (x < y)) [2, 1, 2]) ∧
      ∀ a : Nat, (mergeSortWithCmp (fun x y : Nat => decide (x < y))
            [2, 1, 2]).filter
          (fun x => !decide (x < a) && !decide (a < x)) =
        ([2, 1, 2] : List Nat).filter
          (fun x => !decide (x < a) && !decide (a < x)) :=
  claim2_sorted_descending_stable (fun x y : Nat => decide (x < y))
    (fun a b h => by simp at h ⊢; omega)
    (fun a b c h1 h2 => by simp at h1 h2 ⊢; omega)
    (fun a b h => by simp; omega)
    [2, 1, 2]

/-- C3: for every input sequence of length n and every answer stream, each
engine issues at least `max(0, n-1)` and at most `n * ceil(log2 n)`
comparison requests (`Nat` subtraction makes `n - 1` the former and
`Nat.clog 2` is `ceil ∘ log2`). -/
theorem claim3_comparison_count_bounds :
    ∀ (α : Type u) (ans : Nat → Bool) (items : List α) (k : Nat),
      (items.length - 1 ≤ (mergeSortT ans items k).2.length ∧
        (mergeSortT ans items k).2.length ≤
          items.length * Nat.clog 2 items.length) ∧
      items.length - 1 ≤ (interactiveMergeSort ans items k).2.length ∧
        (interactiveMergeSort ans items k).2.length ≤
          items.length * Nat.clog 2 items.length := by
  intro α ans items k
  refine ⟨⟨mergeSortT_snd_lower ans items k, mergeSortT_snd_upper ans items k⟩,
    ?_⟩
  rw [interactiveMergeSort_eq_mergeSortT]
  exact ⟨mergeSortT_snd_lower ans items k, mergeSortT_snd_upper ans items k⟩

/-- C4: the engine is classic top-down merge sort: a sequence of length ≥ 2
is split at `len/2` (the left half is the smaller one for odd lengths), the
halves are sorted recursively and merged; the merge asks about
`(left[i], right[j])`, emits `left[i]` on a true answer and `right[j]` on a
false one, and once a side is exhausted appends the rest of the other side
verbatim with no further requests. -/
theorem claim4_classic_topdown_mergesort :
    ∀ (α : Type u) (cmp : α → α → Bool) (ans : Nat → Bool) (items : List α)
      (a b : α) (l r : List α) (k : Nat),
      (2 ≤ items.length →
        mergeSortWithCmp cmp items =
          mergeWithCmp cmp
            (mergeSortWithCmp cmp (items.take (items.length / 2)))
            (mergeSortWithCmp cmp (items.drop (items.length / 2)))) ∧
      (items.take (items.length / 2)).length ≤
        (items.drop (items.length / 2)).length ∧
      mergeT ans (a :: l) (b :: r) k =
        (if ans k then
          (a :: (mergeT ans l (b :: r) (k + 1)).1,
            (a, b) :: (mergeT ans l (b :: r) (k + 1)).2)
        else
          (b :: (mergeT ans (a :: l) r (k + 1)).1,
            (a, b) :: (mergeT ans (a :: l) r (k + 1)).2)) ∧
      mergeT ans (a :: l) [] k = (a :: l, []) ∧
      mergeT ans [] r k = (r, []) := by
  intro α cmp ans items a b l r k
  refine ⟨mergeSortWithCmp_unfold cmp items, ?_, ?_, ?_, ?_⟩
  · simp only [List.length_take, List.length_drop]
    omega
  · rw [mergeT]
  · simp [mergeT]
  · simp [mergeT]

theorem claim4_witness :
    mergeSortWithCmp (fun x y : Nat => decide (x < y)) [2, 1] =
        mergeWithCmp (fun x y : Nat => decide (x < y))
          (mergeSortWithCmp (fun x y : Nat => decide (x < y))
            (List.take ([2, 1].length / 2) [2, 1]))
          (mergeSortWithCmp (fun x y : Nat => decide (x < y))
            (List.drop ([2, 1].length / 2) [2, 1])) ∧
      mergeT (fun _ => true) [(1 : Nat)] [] 0 = ([1], []) :=
  ⟨(claim4_classic_topdown_mergesort Nat (fun x y => decide (x < y))
      (fun _ => true) [2, 1] 0 0 [] [] 0).1 (by decide),
   (claim4_classic_topdown_mergesort Nat (fun x y => decide (x < y))
      (fun _ => true) [2, 1] 1 0 [] [] 0).2.2.2.1⟩

/-- C5: the synchronous console engine and the TUI engine are the same
algorithm: fed the same scripted answer stream, `interactiveMergeSort` and
the instrumented `mergeSortWithCmp` (`mergeSortT`) issue the identical
sequence of comparison requests in identical order and return identical
rankings — and likewise for the two merge routines. -/
theorem claim5_engines_equivalent :
    ∀ (α : Type u) (ans : Nat → Bool) (items : List α) (k : Nat),
      interactiveMergeSort ans items k = mergeSortT ans items k ∧
      ∀ l r : List α, interactiveMerge ans l r k = mergeT ans l r k :=
  fun α ans items k =>
    ⟨interactiveMergeSort_eq_mergeSortT ans items k,
     fun l r => interactiveMerge_eq_mergeT ans l r k⟩

/-- C6: the console oracle reads one line at a time, trims whitespace and
matches case-insensitively: it skips any prefix of unrecognized lines, one
invalidity notice and re-prompt each, until the first recognized line, which
makes it return true ("1"/"a"), return false ("2"/"b") or terminate the
process via `os.Exit(0)` ("q"/"quit"/"exit"); if no recognized line ever
arrives the retries continue until the stream is exhausted. -/
theorem claim6_console_oracle_protocol (a b : String) :
    (∀ (pre : List String) (line : String) (rest : List String),
      (∀ l ∈ pre, specLineClass l = .invalid) →
      (specLineClass line = .preferA →
        askPreference a b (pre ++ line :: rest) =
          .answer true rest pre.length) ∧
      (specLineClass line = .preferB →
        askPreference a b (pre ++ line :: rest) =
          .answer false rest pre.length) ∧
      (specLineClass line = .quitCmd →
        askPreference a b (pre ++ line :: rest) = .quitProgram)) ∧
    ∀ lines : List String, (∀ l ∈ lines, specLineClass l = .invalid) →
      askPreference a b lines = .readError := by
  constructor
  · intro pre line rest hpre
    have h := askPreference_firstRecognized a b pre line rest hpre
    refine ⟨fun hcl => ?_, fun hcl => ?_, fun hcl => ?_⟩ <;>
      (rw [hcl] at h; simpa using h)
  · exact askPreference_allInvalid a b

theorem claim6_witness :
    askPreference "A" "B" (["banana"] ++ "2" :: []) =
        AskResult.answer false [] 1 ∧
      askPreference "A" "B" ["yes", "no"] = AskResult.readError :=
  ⟨((claim6_console_oracle_protocol "A" "B").1 ["banana"] "2" []
      (by decide)).2.1 (by decide),
   (claim6_console_oracle_protocol "A" "B").2 ["yes", "no"] (by decide)⟩

/-- C7 (counterexample): fed the lines "1", "banana", "2", the console
oracle does NOT re-prompt once and resolve to prefer B on the third line. -/
theorem claim7_counterexample :
    askPreference "A" "B" ["1", "banana", "2"] ≠
      AskResult.answer false [] 1 := by
  decide

/-- C7 (amended): fed the lines "1", "banana", "2", the oracle resolves
immediately on the first line to prefer A (returns true) with zero
re-prompts, leaving "banana" and "2" unread; the behavior the claim
describes — one re-prompt, then prefer B — is what happens when the oracle
is fed "banana", "2". -/
theorem claim7_first_line_wins :
    askPreference "A" "B" ["1", "banana", "2"] =
        AskResult.answer true ["banana", "2"] 0 ∧
      askPreference "A" "B" ["banana", "2"] =
        AskResult.answer false [] 1 := by
  constructor <;> decide

/-- C8: in the TUI step machine, the reply slot of a request is written at
most once: from `initialModel`, along any message sequence whose request
identifiers are pairwise distinct (each Go request carries a fresh channel),
any given channel receives at most one send; a step sends only on the channel
of the currently pending request and clears the pending slot (`m.req`) to
`none` in the same step, and each step performs at most one send (the model
holds at most one pending request at a time — its `req` field). -/
theorem claim8_reply_written_once :
    (∀ msgs : List TuiMsg, (msgRespIds msgs).Nodup → ∀ ch : Nat,
      ((runTui initialModel msgs).2.filter
          (fun s => decide (s.1 = ch))).length ≤ 1) ∧
    (∀ (m : TuiModel) (msg : TuiMsg) (ch : Nat) (v : Bool),
      (ch, v) ∈ (Update m msg).2.1 →
        m.req = some ch ∧ (Update m msg).1.req = none) ∧
    ∀ (m : TuiModel) (msg : TuiMsg), (Update m msg).2.1.length ≤ 1 :=
  ⟨fun msgs hnd ch => runTui_send_once initialModel msgs ch hnd
      (fun h => absurd h (by simp [initialModel])),
   Update_send_pending, Update_sends_le_one⟩

theorem claim8_witness :
    ((runTui initialModel [TuiMsg.cmpRequest "x" "y" 0, TuiMsg.key "left",
        TuiMsg.key "left"]).2.filter (fun s => decide (s.1 = 0))).length ≤ 1 ∧
      (({ a := "x", b := "y", req := some 0, status := "" } : TuiModel).req =
          some 0 ∧
        (Update { a := "x", b := "y", req := some 0, status := "" }
            (TuiMsg.key "left")).1.req = none) :=
  ⟨claim8_reply_written_once.1
      [TuiMsg.cmpRequest "x" "y" 0, TuiMsg.key "left", TuiMsg.key "left"]
      (by decide) 0,
   claim8_reply_written_once.2.1
      { a := "x", b := "y", req := some 0, status := "" }
      (TuiMsg.key "left") 0 true (by decide)⟩

/-- C9: for a comparator derived from a strict total order the engine is
idempotent: sorting its own output again with the same comparator returns it
unchanged. -/
theorem claim9_idempotent {α : Type u} (cmp : α → α → Bool)
    (hasym : ∀ a b, cmp a b = true → cmp b a = false)
    (htrans : ∀ a b c, cmp a b = true → cmp b c = true → cmp a c = true)
    (htotal : ∀ a b : α, a ≠ b → cmp a b = true ∨ cmp b a = true)
    (items : List α) :
    mergeSortWithCmp cmp (mergeSortWithCmp cmp items) =
      mergeSortWithCmp cmp items :=
  mergeSortWithCmp_idem cmp hasym htrans htotal items

theorem claim9_witness :
    mergeSortWithCmp (fun x y : Nat => decide (x < y))
        (mergeSortWithCmp (fun x y : Nat => decide (x < y)) [2, 1, 2]) =
      mergeSortWithCmp (fun x y : Nat => decide (x < y)) [2, 1, 2] :=
  claim9_idempotent (fun x y : Nat => decide (x < y))
    (fun a b h => by simp at h ⊢; omega)
    (fun a b c h1 h2 => by simp at h1 h2 ⊢; omega)
    (fun a b h => by simp; omega)
    [2, 1, 2]

/-- C10 (implicit): the merge preserves the internal order of each half —
each of `left` and `right` is a subsequence of the merged output, for any
comparator answers, in both engines; consequently the sorted halves of a
split keep their relative order inside the engine's output. -/
theorem claim10_halves_are_subsequences :
    ∀ (α : Type u) (cmp : α → α → Bool) (ans : Nat → Bool)
      (l r items : List α) (k : Nat),
      l.Sublist (mergeWithCmp cmp l r) ∧
      r.Sublist (mergeWithCmp cmp l r) ∧
      l.Sublist (interactiveMerge ans l r k).1 ∧
      r.Sublist (interactiveMerge ans l r k).1 ∧
      (2 ≤ items.length →
        (mergeSortWithCmp cmp (items.take (items.length / 2))).Sublist
            (mergeSortWithCmp cmp items) ∧
          (mergeSortWithCmp cmp (items.drop (items.length / 2))).Sublist
            (mergeSortWithCmp cmp items)) := by
  intro α cmp ans l r items k
  refine ⟨left_sublist_mergeWithCmp cmp l r,
    right_sublist_mergeWithCmp cmp l r,
    left_sublist_interactiveMerge ans l r k,
    right_sublist_interactiveMerge ans l r k, ?_⟩
  intro h2
  rw [mergeSortWithCmp_unfold cmp items h2]
  exact ⟨left_sublist_mergeWithCmp cmp _ _, right_sublist_mergeWithCmp cmp _ _⟩

theorem claim10_witness :
    ([5] : List Nat).Sublist
        (mergeWithCmp (fun x y : Nat => decide (x < y)) [5] [6]) ∧
      (mergeSortWithCmp (fun x y : Nat => decide (x < y))
          (List.take ([5, 6].length / 2) [5, 6])).Sublist
        (mergeSortWithCmp (fun x y : Nat => decide (x < y)) [5, 6]) :=
  ⟨(claim10_halves_are_subsequences Nat (fun x y => decide (x < y))
      (fun _ => true) [5] [6] [5, 6] 0).1,
   ((claim10_halves_are_subsequences Nat (fun x y => decide (x < y))
      (fun _ => true) [5] [6] [5, 6] 0).2.2.2.2 (by decide)).1⟩

end Tournament
